import Mathlib

/-!
# Cosa `OffScreen` canvas: a shallow embedding of `Cosa/Canvas/OffScreen.hh`

The off-screen canvas keeps a monochrome bitmap, one bit per pixel, eight
vertically stacked pixels per byte.  The bitmap is modelled as a `List Nat`
of bytes; a store through a `uint8_t*` keeps the low eight bits (`% 256`).
An access outside the bitmap is undefined in the source and is `none` here.

The target is the 8-bit AVR of the Arduino Che Cosa project: `int` is 16 bits
wide, `uint8_t` operands are promoted to `int` before arithmetic.
-/

namespace OffScreen

/-! ## Machine integers -/

/-- Value of a 16-bit `int` holding the mathematical result `v`: the low 16 bits of
    `v`, read as a signed number.  A result outside -32768..32767 is a signed
    overflow, which the language leaves undefined; it is modelled as the
    wrap-around of the 16-bit machine arithmetic. -/
def toInt16 (v : Int) : Int := (v + 32768) % 65536 - 32768

/-- Conversion of an `int` to `uint16_t`: reduction modulo `2^16`. -/
def toUInt16 (v : Int) : Nat := (v % 65536).toNat

/-- Modelled from the spec: `CHARBITS` is defined in `Cosa/Types.h`, which is not
    part of the sources at hand; the spec computes `byteCount = width*height/8`. -/
def CHARBITS : Nat := 8

/-! ## Construction, destruction -/

/-- Initialiser `m_count((width * height) / CHARBITS)` of the constructor.
    `width` and `height` are `uint8_t`, promoted to `int`; the product and the
    quotient are `int` (division truncates toward zero); the result is stored in
    the `uint16_t` field. -/
def m_count (width height : Nat) : Nat :=
  toUInt16 (Int.tdiv (toInt16 ((width : Int) * (height : Int))) (CHARBITS : Int))

/-- The private fields of an `OffScreen`; pointers are addresses, `0` is null. -/
structure Fields where
  /-- Size of bitmap (bytes) -/
  m_count : Nat
  /-- Pointer to bitmap buffer -/
  m_bitmap : Nat
  /-- Allocation flag -/
  m_free : Nat
  deriving DecidableEq, Repr

/-- Constructor `OffScreen(width, height, buffer)`.  `malloc` gives the address
    returned by the allocator for a request of the given size (possibly `0`).
    Members are initialised in declaration order: `m_count`, `m_bitmap`, `m_free`. -/
def construct (malloc : Nat → Nat) (width height : Nat) (buffer : Nat) : Fields :=
  let count := OffScreen.m_count width height
  { m_count := count
    m_bitmap := if buffer ≠ 0 then buffer else malloc count
    m_free := if buffer = 0 then 1 else 0 }

/-- Destructor `~OffScreen()`: the list of addresses handed to `free`. -/
def destruct (o : Fields) : List Nat :=
  if o.m_free ≠ 0 then [o.m_bitmap] else []

/-- Accessor `get_bitmap()`. -/
def get_bitmap (o : Fields) : Nat := o.m_bitmap

/-! ## Pixel addressing and `draw_pixel` -/

/-- Index expression `((y >> 3) * WIDTH) + x` of `draw_pixel`. -/
def byteIndex (WIDTH x y : Nat) : Nat := ((y >>> 3) * WIDTH) + x

/-- Bit position `pos = (y & 0x07)` of `draw_pixel`. -/
def bitPos (y : Nat) : Nat := y &&& 0x07

/-- Bit pattern of the 16-bit `int` value `~v`. -/
def intNot (v : Nat) : Nat := v ^^^ 0xFFFF

/-- Method `draw_pixel(x, y)` on the bitmap `m_bitmap` of a canvas of width `WIDTH`
    whose current pen color is `pen_color` (the value of `get_pen_color()`).
    `none` when the addressed byte lies outside the bitmap. -/
def draw_pixel (WIDTH pen_color : Nat) (m_bitmap : List Nat) (x y : Nat) :
    Option (List Nat) :=
  let i := byteIndex WIDTH x y
  let pos := bitPos y
  match m_bitmap[i]? with
  | none => none
  | some b =>
    if pen_color = 0 then
      some (m_bitmap.set i ((b ||| (1 <<< pos)) % 256))
    else
      some (m_bitmap.set i ((b &&& intNot (1 <<< pos)) % 256))

/-! ## Reading a pixel -/

/-- The two colors of the monochrome canvas, as the spec names them. -/
inductive Color where
  | background
  | foreground
  deriving DecidableEq, Repr

/-- Class of a pen color value: `0` is background, any other value foreground. -/
def penClass (pen_color : Nat) : Color :=
  if pen_color = 0 then Color.background else Color.foreground

/-- Reading of a stored pixel as the spec words it (the class itself has no pixel
    reader): bit `y % 8` of byte `(y / 8) * WIDTH + x`; `none` outside the bitmap. -/
def pixel_bit (WIDTH : Nat) (m_bitmap : List Nat) (x y : Nat) : Option Bool :=
  (m_bitmap[(y / 8) * WIDTH + x]?).map fun b => b.testBit (y % 8)

/-- Color of a stored pixel as the spec words it, decoded with the encoding that
    `draw_pixel` writes: bit set is pen color 0 (background), bit clear is a
    nonzero pen color (foreground). -/
def read_pixel (WIDTH : Nat) (m_bitmap : List Nat) (x y : Nat) : Option Color :=
  (pixel_bit WIDTH m_bitmap x y).map fun bit =>
    if bit then Color.background else Color.foreground

/-- Bit `k` of byte `i` of a bitmap; `none` outside the bitmap. -/
def bitAt (m_bitmap : List Nat) (i k : Nat) : Option Bool :=
  (m_bitmap[i]?).map fun b => b.testBit k

/-! ## `begin` and `fill_rect` (declared in the header, defined elsewhere) -/

/-- Modelled from the spec: `OffScreen::begin()` is only declared in the header.
    The spec: zero-fills the entire buffer and returns success unconditionally. -/
def begin (m_bitmap : List Nat) : List Nat × Bool :=
  (List.replicate m_bitmap.length 0, true)

/-- Coordinates of the rectangle `[x, x+width) × [y, y+height)`, row by row. -/
def rect_points (x y width height : Nat) : List (Nat × Nat) :=
  (List.range height).flatMap fun j => (List.range width).map fun i => (x + i, y + j)

/-- Invoking `draw_pixel` at each coordinate of a list, in order. -/
def draw_pixels (WIDTH pen_color : Nat) (m_bitmap : List Nat) :
    List (Nat × Nat) → Option (List Nat)
  | [] => some m_bitmap
  | p :: ps =>
    match draw_pixel WIDTH pen_color m_bitmap p.1 p.2 with
    | none => none
    | some b => draw_pixels WIDTH pen_color b ps

/-- Modelled from the spec: `OffScreen::fill_rect` is only declared in the header.
    The spec: equivalent to invoking `draw_pixel` for every coordinate in the
    rectangle `[x, x+width) × [y, y+height)`. -/
def fill_rect (WIDTH pen_color : Nat) (m_bitmap : List Nat) (x y width height : Nat) :
    Option (List Nat) :=
  draw_pixels WIDTH pen_color m_bitmap (rect_points x y width height)

/-! ## Addressing lemmas -/

theorem shiftRight_three (y : Nat) : y >>> 3 = y / 8 := by
  rw [Nat.shiftRight_eq_div_pow]

theorem and_seven (y : Nat) : y &&& 0x07 = y % 8 :=
  Nat.and_pow_two_sub_one_eq_mod y 3

theorem byteIndex_eq (WIDTH x y : Nat) : byteIndex WIDTH x y = (y / 8) * WIDTH + x := by
  unfold byteIndex; rw [shiftRight_three]

theorem bitPos_eq (y : Nat) : bitPos y = y % 8 := and_seven y

/-! ## The byte written by `draw_pixel` -/

/-- Bits of the byte stored when the pen color is `0`. -/
theorem testBit_set_byte (b pos j : Nat) :
    ((b ||| (1 <<< pos)) % 256).testBit j
      = (decide (j < 8) && (b.testBit j || decide (pos = j))) := by
  have h256 : (256 : Nat) = 2 ^ 8 := by norm_num
  rw [h256, Nat.testBit_mod_two_pow, Nat.testBit_or, Nat.one_shiftLeft, Nat.testBit_two_pow]

/-- Bits of the byte stored when the pen color is nonzero. -/
theorem testBit_clear_byte (b pos j : Nat) :
    ((b &&& intNot (1 <<< pos)) % 256).testBit j
      = (decide (j < 8) && (b.testBit j && !decide (pos = j))) := by
  have h256 : (256 : Nat) = 2 ^ 8 := by norm_num
  have hFFFF : (0xFFFF : Nat) = 2 ^ 16 - 1 := by norm_num
  unfold intNot
  rw [h256, Nat.testBit_mod_two_pow, Nat.testBit_and, Nat.testBit_xor, Nat.one_shiftLeft,
    Nat.testBit_two_pow, hFFFF, Nat.testBit_two_pow_sub_one]
  by_cases hj : j < 8
  · have : j < 16 := by omega
    by_cases hp : pos = j <;> simp [hj, hp, this]
  · simp [hj]

/-- Byte stored by `draw_pixel` over the old byte `b`, as in the two branches. -/
theorem draw_pixel_eq (WIDTH pen_color : Nat) (m_bitmap : List Nat) (x y : Nat)
    (h : byteIndex WIDTH x y < m_bitmap.length) :
    draw_pixel WIDTH pen_color m_bitmap x y
      = some (m_bitmap.set (byteIndex WIDTH x y)
          (if pen_color = 0 then (m_bitmap[byteIndex WIDTH x y] ||| (1 <<< bitPos y)) % 256
           else (m_bitmap[byteIndex WIDTH x y] &&& intNot (1 <<< bitPos y)) % 256)) := by
  unfold draw_pixel
  simp only [List.getElem?_eq_getElem h]
  split <;> rfl

/-- Bits of the byte that `draw_pixel` stores, for either pen color. -/
theorem testBit_new_byte (pen_color b pos j : Nat) :
    (if pen_color = 0 then (b ||| (1 <<< pos)) % 256
      else (b &&& intNot (1 <<< pos)) % 256).testBit j
      = (decide (j < 8) && (if pos = j then decide (pen_color = 0) else b.testBit j)) := by
  by_cases hc : pen_color = 0
  · simp only [hc, if_true, testBit_set_byte]
    by_cases hp : pos = j <;> simp [hp]
  · simp only [hc, if_false, testBit_clear_byte]
    by_cases hp : pos = j <;> simp [hp]

theorem new_byte_lt (pen_color b pos : Nat) :
    (if pen_color = 0 then (b ||| (1 <<< pos)) % 256
      else (b &&& intNot (1 <<< pos)) % 256) < 256 := by
  split <;> exact Nat.mod_lt _ (by norm_num)

/-! ## Claims about `draw_pixel` -/

/-- C1: when byte `i = (y / 8) * WIDTH + x` exists in the bitmap, `draw_pixel(x, y)`
    succeeds and leaves bit `y % 8` of byte `i` equal to 1 for pen color 0 and equal
    to 0 for a nonzero pen color; the code's `(y >> 3) * WIDTH + x` and `y & 0x07`
    are exactly this byte index and this bit position.  The statement holds for all
    naturals, in particular for the `uint8_t` values 0..255 of `x`, `y`, `WIDTH`. -/
theorem draw_pixel_target_bit (WIDTH pen_color : Nat) (m_bitmap : List Nat) (x y : Nat)
    (h : (y / 8) * WIDTH + x < m_bitmap.length) :
    ((y >>> 3) * WIDTH) + x = (y / 8) * WIDTH + x ∧ (y &&& 0x07) = y % 8 ∧
    ∃ out b, draw_pixel WIDTH pen_color m_bitmap x y = some out ∧
      out[(y / 8) * WIDTH + x]? = some b ∧
      (pen_color = 0 → b.testBit (y % 8) = true) ∧
      (pen_color ≠ 0 → b.testBit (y % 8) = false) := by
  have hi : byteIndex WIDTH x y < m_bitmap.length := by rw [byteIndex_eq]; exact h
  refine ⟨by rw [shiftRight_three], and_seven y, ?_⟩
  rw [← byteIndex_eq, ← bitPos_eq]
  refine ⟨_, if pen_color = 0 then (m_bitmap[byteIndex WIDTH x y] ||| (1 <<< bitPos y)) % 256
      else (m_bitmap[byteIndex WIDTH x y] &&& intNot (1 <<< bitPos y)) % 256,
    draw_pixel_eq WIDTH pen_color m_bitmap x y hi, ?_, ?_, ?_⟩
  · rw [List.getElem?_set_self hi]
  · intro hc
    rw [testBit_new_byte, bitPos_eq]
    have : y % 8 < 8 := Nat.mod_lt _ (by norm_num)
    simp [hc, this]
  · intro hc
    rw [testBit_new_byte]
    simp [hc]

/-- Witness of C1: pixel (3, 5) on an 8x8 canvas, foreground pen. -/
theorem draw_pixel_target_bit_witness :
    ((5 >>> 3) * 8) + 3 = (5 / 8) * 8 + 3 ∧ (5 &&& 0x07) = 5 % 8 ∧
    ∃ out b, draw_pixel 8 1 [255, 255, 255, 255, 255, 255, 255, 255] 3 5 = some out ∧
      out[(5 / 8) * 8 + 3]? = some b ∧
      ((1 : Nat) = 0 → b.testBit (5 % 8) = true) ∧
      ((1 : Nat) ≠ 0 → b.testBit (5 % 8) = false) :=
  draw_pixel_target_bit 8 1 [255, 255, 255, 255, 255, 255, 255, 255] 3 5 (by decide)

/-- C2: when byte `i = (y / 8) * WIDTH + x` exists in the bitmap, `draw_pixel(x, y)`
    keeps the length of the bitmap, keeps every byte at an index other than `i`,
    keeps the seven bits of byte `i` other than bit `y % 8`, and the new byte is in
    0..255. -/
theorem draw_pixel_frame (WIDTH pen_color : Nat) (m_bitmap : List Nat) (x y : Nat)
    (h : (y / 8) * WIDTH + x < m_bitmap.length) :
    ∃ out, draw_pixel WIDTH pen_color m_bitmap x y = some out ∧
      out.length = m_bitmap.length ∧
      (∀ j, j ≠ (y / 8) * WIDTH + x → out[j]? = m_bitmap[j]?) ∧
      ∃ b b', m_bitmap[(y / 8) * WIDTH + x]? = some b ∧
        out[(y / 8) * WIDTH + x]? = some b' ∧ b' < 256 ∧
        ∀ k, k < 8 → k ≠ y % 8 → b'.testBit k = b.testBit k := by
  have hi : byteIndex WIDTH x y < m_bitmap.length := by rw [byteIndex_eq]; exact h
  rw [← byteIndex_eq, ← bitPos_eq]
  refine ⟨_, draw_pixel_eq WIDTH pen_color m_bitmap x y hi, List.length_set .., ?_,
    m_bitmap[byteIndex WIDTH x y],
    if pen_color = 0 then (m_bitmap[byteIndex WIDTH x y] ||| (1 <<< bitPos y)) % 256
      else (m_bitmap[byteIndex WIDTH x y] &&& intNot (1 <<< bitPos y)) % 256,
    List.getElem?_eq_getElem hi, ?_, new_byte_lt .., ?_⟩
  · intro j hj
    rw [List.getElem?_set_ne (Ne.symm hj)]
  · rw [List.getElem?_set_self hi]
  · intro k hk hne
    rw [testBit_new_byte]
    simp [hk, Ne.symm hne]

/-- Witness of C2: on an 8x8 canvas `draw_pixel(3, 5)` touches only bit 5 of byte 3. -/
theorem draw_pixel_frame_witness :
    ∃ out, draw_pixel 8 1 [255, 255, 255, 255, 255, 255, 255, 255] 3 5 = some out ∧
      out.length = [255, 255, 255, 255, 255, 255, 255, 255].length ∧
      (∀ j, j ≠ (5 / 8) * 8 + 3 → out[j]? = [255, 255, 255, 255, 255, 255, 255, 255][j]?) ∧
      ∃ b b', [255, 255, 255, 255, 255, 255, 255, 255][(5 / 8) * 8 + 3]? = some b ∧
        out[(5 / 8) * 8 + 3]? = some b' ∧ b' < 256 ∧
        ∀ k, k < 8 → k ≠ 5 % 8 → b'.testBit k = b.testBit k :=
  draw_pixel_frame 8 1 [255, 255, 255, 255, 255, 255, 255, 255] 3 5 (by decide)

/-- C4: read-after-write.  When the byte of pixel `(x, y)` exists in the bitmap,
    `draw_pixel(x, y)` succeeds and reading the pixel afterwards (bit `y % 8` of byte
    `(y / 8) * WIDTH + x`, bit set = background, bit clear = foreground) yields
    foreground for a nonzero pen color and background for pen color 0, whatever the
    bitmap held before. -/
theorem read_after_draw_pixel (WIDTH pen_color : Nat) (m_bitmap : List Nat) (x y : Nat)
    (h : (y / 8) * WIDTH + x < m_bitmap.length) :
    ∃ out, draw_pixel WIDTH pen_color m_bitmap x y = some out ∧
      read_pixel WIDTH out x y = some (penClass pen_color) ∧
      (pen_color ≠ 0 → read_pixel WIDTH out x y = some Color.foreground) ∧
      (pen_color = 0 → read_pixel WIDTH out x y = some Color.background) := by
  have hi : byteIndex WIDTH x y < m_bitmap.length := by rw [byteIndex_eq]; exact h
  have hy : y % 8 < 8 := Nat.mod_lt _ (by norm_num)
  have key : read_pixel WIDTH (m_bitmap.set (byteIndex WIDTH x y)
      (if pen_color = 0 then (m_bitmap[byteIndex WIDTH x y] ||| (1 <<< bitPos y)) % 256
        else (m_bitmap[byteIndex WIDTH x y] &&& intNot (1 <<< bitPos y)) % 256)) x y
      = some (penClass pen_color) := by
    unfold read_pixel pixel_bit penClass
    rw [← byteIndex_eq, List.getElem?_set_self hi]
    simp only [Option.map_some', testBit_new_byte, bitPos_eq]
    by_cases hc : pen_color = 0 <;> simp [hc, hy]
  refine ⟨_, draw_pixel_eq WIDTH pen_color m_bitmap x y hi, key, ?_, ?_⟩
  · intro hc; rw [key]; simp [penClass, hc]
  · intro hc; rw [key]; simp [penClass, hc]

/-- Witness of C4: pixel (3, 5) of an all-zero 8x8 bitmap, pen color 0. -/
theorem read_after_draw_pixel_witness :
    ∃ out, draw_pixel 8 0 [0, 0, 0, 0, 0, 0, 0, 0] 3 5 = some out ∧
      read_pixel 8 out 3 5 = some (penClass 0) ∧
      ((0 : Nat) ≠ 0 → read_pixel 8 out 3 5 = some Color.foreground) ∧
      ((0 : Nat) = 0 → read_pixel 8 out 3 5 = some Color.background) :=
  read_after_draw_pixel 8 0 [0, 0, 0, 0, 0, 0, 0, 0] 3 5 (by decide)

/-- The byte stored by `draw_pixel` is a fixed point of the same store. -/
theorem new_byte_idem (pen_color b pos : Nat) :
    (if pen_color = 0 then
        ((if pen_color = 0 then (b ||| (1 <<< pos)) % 256
          else (b &&& intNot (1 <<< pos)) % 256) ||| (1 <<< pos)) % 256
      else ((if pen_color = 0 then (b ||| (1 <<< pos)) % 256
          else (b &&& intNot (1 <<< pos)) % 256) &&& intNot (1 <<< pos)) % 256)
      = (if pen_color = 0 then (b ||| (1 <<< pos)) % 256
          else (b &&& intNot (1 <<< pos)) % 256) := by
  apply Nat.eq_of_testBit_eq
  intro j
  rw [testBit_new_byte, testBit_new_byte]
  by_cases hj : j < 8 <;> by_cases hp : pos = j <;> simp [hj, hp]

/-- C5: idempotence.  When the byte of pixel `(x, y)` exists in the bitmap, a first
    `draw_pixel(x, y)` succeeds with some bitmap `out`, and a second call with the
    same pen color on `out` succeeds and returns exactly `out`. -/
theorem draw_pixel_idempotent (WIDTH pen_color : Nat) (m_bitmap : List Nat) (x y : Nat)
    (h : (y / 8) * WIDTH + x < m_bitmap.length) :
    ∃ out, draw_pixel WIDTH pen_color m_bitmap x y = some out ∧
      draw_pixel WIDTH pen_color out x y = some out ∧
      (draw_pixel WIDTH pen_color m_bitmap x y).bind
          (fun b => draw_pixel WIDTH pen_color b x y)
        = draw_pixel WIDTH pen_color m_bitmap x y := by
  have hi : byteIndex WIDTH x y < m_bitmap.length := by rw [byteIndex_eq]; exact h
  have h1 := draw_pixel_eq WIDTH pen_color m_bitmap x y hi
  have hlen : byteIndex WIDTH x y < (m_bitmap.set (byteIndex WIDTH x y)
      (if pen_color = 0 then (m_bitmap[byteIndex WIDTH x y] ||| (1 <<< bitPos y)) % 256
        else (m_bitmap[byteIndex WIDTH x y] &&& intNot (1 <<< bitPos y)) % 256)).length := by
    rw [List.length_set]; exact hi
  have h2 := draw_pixel_eq WIDTH pen_color _ x y hlen
  rw [List.getElem_set_self, List.set_set, new_byte_idem] at h2
  exact ⟨_, h1, h2, by rw [h1, Option.some_bind, h2]⟩

/-- Witness of C5: pixel (3, 5) on an 8x8 canvas, drawn twice with a nonzero pen. -/
theorem draw_pixel_idempotent_witness :
    ∃ out, draw_pixel 8 1 [255, 255, 255, 255, 255, 255, 255, 255] 3 5 = some out ∧
      draw_pixel 8 1 out 3 5 = some out ∧
      (draw_pixel 8 1 [255, 255, 255, 255, 255, 255, 255, 255] 3 5).bind
          (fun b => draw_pixel 8 1 b 3 5)
        = draw_pixel 8 1 [255, 255, 255, 255, 255, 255, 255, 255] 3 5 :=
  draw_pixel_idempotent 8 1 [255, 255, 255, 255, 255, 255, 255, 255] 3 5 (by decide)

/-! ## The byte count of the constructor -/

/-- A product that fits a 16-bit `int` gives the exact byte count. -/
theorem m_count_exact (width height : Nat) (hp : width * height ≤ 32767) :
    m_count width height = width * height / 8 := by
  unfold m_count toUInt16 toInt16 CHARBITS
  have hc : ((width : Int) * (height : Int)) = ((width * height : Nat) : Int) := by push_cast; rfl
  rw [hc]
  generalize width * height = p at hp
  have h1 : ((p : Int) + 32768) % 65536 - 32768 = (p : Int) := by omega
  rw [h1, ← Int.ofNat_tdiv]
  omega

/-- A product beyond the range of a 16-bit `int` wraps to a negative value, and the
    stored `uint16_t` is `65536 - (65536 - width * height) / 8`. -/
theorem m_count_wrapped (width height : Nat) (hlo : 32767 < width * height)
    (hhi : width * height ≤ 65025) :
    m_count width height = 65536 - (65536 - width * height) / 8 := by
  unfold m_count toUInt16 toInt16 CHARBITS
  have hc : ((width : Int) * (height : Int)) = ((width * height : Nat) : Int) := by push_cast; rfl
  rw [hc]
  generalize width * height = p at hlo hhi
  have h1 : ((p : Int) + 32768) % 65536 - 32768 = -((65536 - p : Nat) : Int) := by omega
  rw [h1, Int.neg_tdiv, ← Int.ofNat_tdiv]
  omega

/-- Largest byte index reachable with `uint8_t` arguments. -/
theorem byteIndex_le (WIDTH x y : Nat) (hW : WIDTH < 256) (hx : x < 256) (hy : y < 256) :
    byteIndex WIDTH x y ≤ 8160 := by
  rw [byteIndex_eq]
  have h1 : y / 8 ≤ 31 := by omega
  have h2 : y / 8 * WIDTH ≤ 31 * 255 := Nat.mul_le_mul h1 (by omega)
  omega

/-- With a height that is a multiple of 8 the index of an in-range pixel is below
    the exact quotient `width * height / 8`. -/
theorem byteIndex_lt_of_height_mod (width height x y : Nat) (h8 : height % 8 = 0)
    (hx : x < width) (hy : y < height) :
    byteIndex width x y < width * height / 8 := by
  rw [byteIndex_eq]
  obtain ⟨k, rfl⟩ : ∃ k, height = 8 * k := ⟨height / 8, by omega⟩
  have hq : width * (8 * k) / 8 = k * width := by
    rw [show width * (8 * k) = 8 * (k * width) by ring]
    exact Nat.mul_div_cancel_left _ (by norm_num)
  rw [hq]
  have h1 : y / 8 + 1 ≤ k := by omega
  have h2 : (y / 8 + 1) * width ≤ k * width := Nat.mul_le_mul_right _ h1
  have h3 : (y / 8 + 1) * width = y / 8 * width + width := by ring
  omega

/-! ## Claims about the constructor and the destructor -/

/-- C3: the canvas of width 8 and height 12 has `width * height = 96`, a multiple
    of 8, and the constructor stores `m_count = 12`; the in-range pixel (7, 11) has
    byte index `(11 / 8) * 8 + 7 = 15`, which is not below 12, and `draw_pixel(7, 11)`
    addresses a byte outside a bitmap of `m_count` bytes. -/
theorem byteIndex_outside_bitmap_8_12 :
    (8 * 12) % 8 = 0 ∧ 7 < 8 ∧ 11 < 12 ∧ m_count 8 12 = 12 ∧
    (11 / 8) * 8 + 7 = 15 ∧ byteIndex 8 7 11 = 15 ∧
    ¬ (byteIndex 8 7 11 < m_count 8 12) ∧
    draw_pixel 8 1 (List.replicate (m_count 8 12) 0) 7 11 = none := by
  have hm : m_count 8 12 = 12 := m_count_exact 8 12 (by norm_num)
  rw [hm]
  decide

/-- C6: width 8 and height 8 give `m_count = 8`; width 200 and height 200 have the
    product 40000, a multiple of 8 with exact quotient 5000, but the product does
    not fit a 16-bit `int` and the stored `m_count` is 62344. -/
theorem m_count_200_200 :
    m_count 8 8 = 8 ∧ (200 * 200) % 8 = 0 ∧ 200 * 200 / 8 = 5000 ∧
    toInt16 (200 * 200) = -25536 ∧ m_count 200 200 = 62344 := by
  refine ⟨m_count_exact 8 8 (by norm_num), by norm_num, by norm_num, by decide, ?_⟩
  rw [m_count_wrapped 200 200 (by norm_num) (by norm_num)]

/-- C9: ownership.  The constructor sets `m_free` exactly when no buffer was given
    (`buffer == 0`); the destructor hands `m_bitmap` to `free` exactly when `m_free`
    is set and frees nothing else; so a supplied buffer is the bitmap returned by
    `get_bitmap` and is not freed, and an internally allocated bitmap (the result
    of `malloc(m_count)`) is freed. -/
theorem ownership (malloc : Nat → Nat) (width height buffer : Nat) :
    ((construct malloc width height buffer).m_free ≠ 0 ↔ buffer = 0) ∧
    (∀ o : Fields, (destruct o = [o.m_bitmap] ↔ o.m_free ≠ 0) ∧
      (destruct o = [] ↔ o.m_free = 0)) ∧
    (buffer ≠ 0 →
      get_bitmap (construct malloc width height buffer) = buffer ∧
      destruct (construct malloc width height buffer) = []) ∧
    (buffer = 0 →
      get_bitmap (construct malloc width height buffer) = malloc (m_count width height) ∧
      destruct (construct malloc width height buffer) = [malloc (m_count width height)]) := by
  refine ⟨?_, ?_, ?_, ?_⟩
  · by_cases hb : buffer = 0 <;> simp [construct, hb]
  · intro o
    by_cases hf : o.m_free = 0 <;> simp [destruct, hf]
  · intro hb
    simp [construct, destruct, get_bitmap, hb]
  · intro hb
    simp [construct, destruct, get_bitmap, hb]

/-- C10: for `uint8_t` width and height with `height % 8 == 0` and every in-range
    coordinate `x < width`, `y < height`, the byte index `(y >> 3) * width + x` of
    `draw_pixel` is strictly below `(width * height) / 8` and strictly below the
    `m_count` stored by the constructor. -/
theorem byteIndex_lt_m_count (width height x y : Nat) (hw : width < 256) (hh : height < 256)
    (h8 : height % 8 = 0) (hx : x < width) (hy : y < height) :
    byteIndex width x y < width * height / 8 ∧ byteIndex width x y < m_count width height := by
  have hlt := byteIndex_lt_of_height_mod width height x y h8 hx hy
  refine ⟨hlt, ?_⟩
  by_cases hp : width * height ≤ 32767
  · rw [m_count_exact width height hp]; exact hlt
  · have hhi : width * height ≤ 255 * 255 := Nat.mul_le_mul (by omega) (by omega)
    rw [m_count_wrapped width height (by omega) (by omega)]
    have hi := byteIndex_le width x y hw (by omega) (by omega)
    omega

/-- Witness of C10: the last pixel (83, 47) of an 84x48 canvas. -/
theorem byteIndex_lt_m_count_witness :
    byteIndex 84 83 47 < 84 * 48 / 8 ∧ byteIndex 84 83 47 < m_count 84 48 :=
  byteIndex_lt_m_count 84 48 83 47 (by decide) (by decide) (by decide) (by decide) (by decide)

/-! ## Claims about `begin` -/

/-- With `uint8_t` width and height and a height that is a multiple of 8, the byte
    of every in-range pixel lies among the first `m_count` bytes. -/
theorem in_range_byte_lt_m_count (width height x y : Nat) (hw : width < 256)
    (hh : height < 256) (h8 : height % 8 = 0) (hx : x < width) (hy : y < height) :
    (y / 8) * width + x < m_count width height := by
  have hlt := byteIndex_lt_of_height_mod width height x y h8 hx hy
  rw [← byteIndex_eq]
  by_cases hp : width * height ≤ 32767
  · rw [m_count_exact width height hp]; exact hlt
  · have hhi : width * height ≤ 255 * 255 := Nat.mul_le_mul (by omega) (by omega)
    rw [m_count_wrapped width height (by omega) (by omega)]
    have hi := byteIndex_le width x y hw (by omega) (by omega)
    omega

/-- After `begin()` every pixel whose byte exists in the bitmap has its bit clear
    and reads, in the encoding of `draw_pixel`, as foreground. -/
theorem read_after_begin_of_byte (WIDTH : Nat) (m_bitmap : List Nat) (x y : Nat)
    (h : (y / 8) * WIDTH + x < m_bitmap.length) :
    pixel_bit WIDTH (begin m_bitmap).1 x y = some false ∧
    read_pixel WIDTH (begin m_bitmap).1 x y = some Color.foreground := by
  have hb : pixel_bit WIDTH (begin m_bitmap).1 x y = some false := by
    unfold pixel_bit begin
    simp [List.getElem?_replicate, h]
  refine ⟨hb, ?_⟩
  unfold read_pixel
  rw [hb]; rfl

/-- C7, as stated, fails.  After `begin()` on the 8-byte bitmap of an 8x8 canvas the
    in-range pixel (3, 5) does not read as background; it reads as foreground.  And
    after `begin()` on the `m_count 8 12 = 12` bytes of an 8x12 canvas the in-range
    pixel (7, 11) has no stored bit at all: its byte 15 lies outside the bitmap. -/
theorem read_after_begin_not_background :
    (m_count 8 8 = 8 ∧ 3 < 8 ∧ 5 < 8 ∧
      read_pixel 8 (begin [255, 255, 255, 255, 255, 255, 255, 255]).1 3 5
        ≠ some Color.background ∧
      read_pixel 8 (begin [255, 255, 255, 255, 255, 255, 255, 255]).1 3 5
        = some Color.foreground) ∧
    (m_count 8 12 = 12 ∧ 7 < 8 ∧ 11 < 12 ∧
      read_pixel 8 (begin (List.replicate (m_count 8 12) 255)).1 7 11 = none) := by
  have h8 : m_count 8 8 = 8 := m_count_exact 8 8 (by norm_num)
  have h12 : m_count 8 12 = 12 := m_count_exact 8 12 (by norm_num)
  rw [h8, h12]
  decide

/-- C7, amended: on a canvas with `uint8_t` width and height whose height is a
    multiple of 8, with a bitmap of at least the `m_count` bytes of the constructor,
    `begin()` reports success, keeps the length of the bitmap and makes every byte
    zero; afterwards every in-range pixel `x < width`, `y < height` has its bit clear
    and reads, in the encoding of `draw_pixel`, as foreground (the value written for
    a nonzero pen color). -/
theorem read_after_begin (width height : Nat) (m_bitmap : List Nat) (x y : Nat)
    (hw : width < 256) (hh : height < 256) (h8 : height % 8 = 0)
    (hbuf : m_count width height ≤ m_bitmap.length) (hx : x < width) (hy : y < height) :
    (begin m_bitmap).2 = true ∧ (begin m_bitmap).1.length = m_bitmap.length ∧
    (∀ b ∈ (begin m_bitmap).1, b = 0) ∧
    pixel_bit width (begin m_bitmap).1 x y = some false ∧
    read_pixel width (begin m_bitmap).1 x y = some Color.foreground := by
  have hbyte : (y / 8) * width + x < m_bitmap.length :=
    Nat.lt_of_lt_of_le (in_range_byte_lt_m_count width height x y hw hh h8 hx hy) hbuf
  obtain ⟨hb, hr⟩ := read_after_begin_of_byte width m_bitmap x y hbyte
  refine ⟨rfl, by simp [begin], ?_, hb, hr⟩
  intro b hmem
  exact (List.mem_replicate.mp hmem).2

/-- Witness of C7, amended: the last pixel (7, 15) of an 8x16 canvas, on the 16
    bytes of its bitmap, after `begin()`. -/
theorem read_after_begin_witness :
    (begin (List.replicate 16 255)).2 = true ∧
    (begin (List.replicate 16 255)).1.length = (List.replicate 16 255).length ∧
    (∀ b ∈ (begin (List.replicate 16 255)).1, b = 0) ∧
    pixel_bit 8 (begin (List.replicate 16 255)).1 7 15 = some false ∧
    read_pixel 8 (begin (List.replicate 16 255)).1 7 15 = some Color.foreground :=
  read_after_begin 8 16 (List.replicate 16 255) 7 15 (by decide) (by decide) (by decide)
    (by rw [m_count_exact 8 16 (by norm_num)]; decide) (by decide) (by decide)

/-! ## Sequences of `draw_pixel` calls -/

theorem pixel_bit_eq_bitAt (WIDTH : Nat) (m_bitmap : List Nat) (x y : Nat) :
    pixel_bit WIDTH m_bitmap x y = bitAt m_bitmap (byteIndex WIDTH x y) (bitPos y) := by
  rw [byteIndex_eq, bitPos_eq]; rfl

/-- Effect of one `draw_pixel` on every bit of the bitmap. -/
theorem bitAt_draw_pixel (WIDTH pen_color : Nat) (m_bitmap : List Nat) (x y : Nat)
    (h : byteIndex WIDTH x y < m_bitmap.length) :
    ∃ out, draw_pixel WIDTH pen_color m_bitmap x y = some out ∧
      out.length = m_bitmap.length ∧
      (∀ i k, k < 8 → byteIndex WIDTH x y = i → bitPos y = k →
        bitAt out i k = some (decide (pen_color = 0))) ∧
      (∀ i k, k < 8 → ¬ (byteIndex WIDTH x y = i ∧ bitPos y = k) →
        bitAt out i k = bitAt m_bitmap i k) := by
  refine ⟨_, draw_pixel_eq WIDTH pen_color m_bitmap x y h, List.length_set .., ?_, ?_⟩
  · intro i k hk hi hp
    subst hi
    unfold bitAt
    rw [List.getElem?_set_self h, Option.map_some', testBit_new_byte]
    simp [hk, hp]
  · intro i k hk hne
    unfold bitAt
    by_cases hi : byteIndex WIDTH x y = i
    · subst hi
      have hp : ¬ bitPos y = k := fun hp => hne ⟨rfl, hp⟩
      rw [List.getElem?_set_self h, List.getElem?_eq_getElem h, Option.map_some',
        Option.map_some', testBit_new_byte]
      simp [hk, hp]
    · rw [List.getElem?_set_ne hi]

/-- Effect of a sequence of `draw_pixel` calls whose bytes all exist. -/
theorem draw_pixels_spec (WIDTH pen_color : Nat) (ps : List (Nat × Nat)) :
    ∀ m_bitmap : List Nat, (∀ p ∈ ps, byteIndex WIDTH p.1 p.2 < m_bitmap.length) →
    ∃ out, draw_pixels WIDTH pen_color m_bitmap ps = some out ∧
      out.length = m_bitmap.length ∧
      (∀ i k, k < 8 → (∃ p ∈ ps, byteIndex WIDTH p.1 p.2 = i ∧ bitPos p.2 = k) →
        bitAt out i k = some (decide (pen_color = 0))) ∧
      (∀ i k, k < 8 → (¬ ∃ p ∈ ps, byteIndex WIDTH p.1 p.2 = i ∧ bitPos p.2 = k) →
        bitAt out i k = bitAt m_bitmap i k) := by
  induction ps with
  | nil =>
    intro m_bitmap _
    exact ⟨m_bitmap, rfl, rfl, fun i k _ hex => by simp at hex, fun _ _ _ _ => rfl⟩
  | cons q rest ih =>
    intro m_bitmap hall
    have hq : byteIndex WIDTH q.1 q.2 < m_bitmap.length := hall q (List.mem_cons_self _ _)
    obtain ⟨b1, hd, hlen1, hset1, hkeep1⟩ := bitAt_draw_pixel WIDTH pen_color m_bitmap q.1 q.2 hq
    have hall1 : ∀ p ∈ rest, byteIndex WIDTH p.1 p.2 < b1.length := by
      intro p hp
      rw [hlen1]
      exact hall p (List.mem_cons_of_mem _ hp)
    obtain ⟨out, hout, hlen, hset, hkeep⟩ := ih b1 hall1
    refine ⟨out, ?_, by rw [hlen, hlen1], ?_, ?_⟩
    · simp only [draw_pixels, hd]
      exact hout
    · intro i k hk hex
      by_cases hrest : ∃ p ∈ rest, byteIndex WIDTH p.1 p.2 = i ∧ bitPos p.2 = k
      · exact hset i k hk hrest
      · rw [hkeep i k hk hrest]
        obtain ⟨p, hp, hpi, hpk⟩ := hex
        rcases List.mem_cons.mp hp with rfl | hp
        · exact hset1 i k hk hpi hpk
        · exact absurd ⟨p, hp, hpi, hpk⟩ hrest
    · intro i k hk hno
      have hrest : ¬ ∃ p ∈ rest, byteIndex WIDTH p.1 p.2 = i ∧ bitPos p.2 = k := by
        rintro ⟨p, hp, hpi⟩
        exact hno ⟨p, List.mem_cons_of_mem _ hp, hpi⟩
      have hq1 : ¬ (byteIndex WIDTH q.1 q.2 = i ∧ bitPos q.2 = k) := by
        intro hqi
        exact hno ⟨q, List.mem_cons_self _ _, hqi⟩
      rw [hkeep i k hk hrest, hkeep1 i k hk hq1]

/-- Two pixels in columns below `WIDTH` with the same byte index and the same bit
    position are the same pixel. -/
theorem pixel_addr_inj (WIDTH x y x' y' : Nat) (hx : x < WIDTH) (hx' : x' < WIDTH)
    (hi : byteIndex WIDTH x y = byteIndex WIDTH x' y') (hp : bitPos y = bitPos y') :
    x = x' ∧ y = y' := by
  rw [byteIndex_eq, byteIndex_eq] at hi
  rw [bitPos_eq, bitPos_eq] at hp
  have hmod := congrArg (fun n => n % WIDTH) hi
  simp only [Nat.add_comm (_ * WIDTH), Nat.add_mul_mod_self_right, Nat.mod_eq_of_lt hx,
    Nat.mod_eq_of_lt hx'] at hmod
  have hdiv : y / 8 = y' / 8 := by
    have hW : 0 < WIDTH := by omega
    have h1 : y / 8 * WIDTH = y' / 8 * WIDTH := by omega
    exact Nat.eq_of_mul_eq_mul_right hW h1
  exact ⟨hmod, by omega⟩

theorem mem_rect_points (x y width height : Nat) (p : Nat × Nat) :
    p ∈ rect_points x y width height
      ↔ x ≤ p.1 ∧ p.1 < x + width ∧ y ≤ p.2 ∧ p.2 < y + height := by
  unfold rect_points
  simp only [List.mem_flatMap, List.mem_map, List.mem_range]
  constructor
  · rintro ⟨j, hj, i, hi, rfl⟩
    simp only
    omega
  · rintro ⟨h1, h2, h3, h4⟩
    refine ⟨p.2 - y, by omega, p.1 - x, by omega, ?_⟩
    ext <;> simp only <;> omega

/-! ## `fill_rect` -/

/-- Effect of `fill_rect` where it is defined: on a canvas `WIDTH x HEIGHT` whose
    in-range pixels all have their byte in the bitmap, for a rectangle
    `[x, x+width) x [y, y+height)` inside the canvas and a nonzero (foreground) pen
    color, `fill_rect` succeeds, keeps the length of the bitmap, leaves every pixel of
    the rectangle reading foreground, and leaves every in-range pixel outside the
    rectangle with the bit and the color it had. -/
theorem fill_rect_foreground (WIDTH HEIGHT pen_color : Nat) (m_bitmap : List Nat)
    (x y width height : Nat) (hpen : pen_color ≠ 0)
    (hw : x + width ≤ WIDTH) (hh : y + height ≤ HEIGHT)
    (hbuf : ∀ x' < WIDTH, ∀ y' < HEIGHT, (y' / 8) * WIDTH + x' < m_bitmap.length) :
    ∃ out, fill_rect WIDTH pen_color m_bitmap x y width height = some out ∧
      out.length = m_bitmap.length ∧
      (∀ x' y', x ≤ x' → x' < x + width → y ≤ y' → y' < y + height →
        read_pixel WIDTH out x' y' = some Color.foreground) ∧
      (∀ x' y', x' < WIDTH → y' < HEIGHT →
        ¬ (x ≤ x' ∧ x' < x + width ∧ y ≤ y' ∧ y' < y + height) →
        pixel_bit WIDTH out x' y' = pixel_bit WIDTH m_bitmap x' y' ∧
        read_pixel WIDTH out x' y' = read_pixel WIDTH m_bitmap x' y') := by
  have hall : ∀ p ∈ rect_points x y width height,
      byteIndex WIDTH p.1 p.2 < m_bitmap.length := by
    intro p hp
    rw [mem_rect_points] at hp
    rw [byteIndex_eq]
    exact hbuf p.1 (by omega) p.2 (by omega)
  obtain ⟨out, hout, hlen, hset, hkeep⟩ :=
    draw_pixels_spec WIDTH pen_color (rect_points x y width height) m_bitmap hall
  have hpos : ∀ y' : Nat, bitPos y' < 8 := fun y' => by
    rw [bitPos_eq]; exact Nat.mod_lt _ (by norm_num)
  refine ⟨out, hout, hlen, ?_, ?_⟩
  · intro x' y' h1 h2 h3 h4
    have hmem : (x', y') ∈ rect_points x y width height :=
      (mem_rect_points x y width height (x', y')).mpr ⟨h1, h2, h3, h4⟩
    have hb := hset (byteIndex WIDTH x' y') (bitPos y') (hpos y') ⟨(x', y'), hmem, rfl, rfl⟩
    unfold read_pixel
    rw [pixel_bit_eq_bitAt, hb]
    simp [hpen]
  · intro x' y' hx' hy' hout'
    have hno : ¬ ∃ p ∈ rect_points x y width height,
        byteIndex WIDTH p.1 p.2 = byteIndex WIDTH x' y' ∧ bitPos p.2 = bitPos y' := by
      rintro ⟨p, hp, hpi, hpk⟩
      rw [mem_rect_points] at hp
      obtain ⟨e1, e2⟩ := pixel_addr_inj WIDTH p.1 p.2 x' y' (by omega) hx' hpi hpk
      apply hout'
      rw [← e1, ← e2]
      exact hp
    have hb := hkeep (byteIndex WIDTH x' y') (bitPos y') (hpos y') hno
    have hbit : pixel_bit WIDTH out x' y' = pixel_bit WIDTH m_bitmap x' y' := by
      rw [pixel_bit_eq_bitAt, pixel_bit_eq_bitAt, hb]
    exact ⟨hbit, by unfold read_pixel; rw [hbit]⟩

/-- Example: on an 8x8 canvas `fill_rect(0, 0, 8, 8)` with a foreground pen turns
    the whole bitmap into the foreground pattern (every bit clear). -/
theorem fill_rect_foreground_witness :
    fill_rect 8 1 [255, 255, 255, 255, 255, 255, 255, 255] 0 0 8 8
      = some [0, 0, 0, 0, 0, 0, 0, 0] ∧
    ∃ out, fill_rect 8 1 [255, 255, 255, 255, 255, 255, 255, 255] 0 0 8 8 = some out ∧
      out.length = [255, 255, 255, 255, 255, 255, 255, 255].length ∧
      (∀ x' y', 0 ≤ x' → x' < 0 + 8 → 0 ≤ y' → y' < 0 + 8 →
        read_pixel 8 out x' y' = some Color.foreground) ∧
      (∀ x' y', x' < 8 → y' < 8 →
        ¬ (0 ≤ x' ∧ x' < 0 + 8 ∧ 0 ≤ y' ∧ y' < 0 + 8) →
        pixel_bit 8 out x' y' = pixel_bit 8 [255, 255, 255, 255, 255, 255, 255, 255] x' y' ∧
        read_pixel 8 out x' y' = read_pixel 8 [255, 255, 255, 255, 255, 255, 255, 255] x' y') :=
  ⟨by decide,
   fill_rect_foreground 8 8 1 [255, 255, 255, 255, 255, 255, 255, 255] 0 0 8 8
    (by decide) (by decide) (by decide) (by decide)⟩

/-- On a canvas with `uint8_t` width and height whose height is a multiple of 8,
    with a bitmap of at least the `m_count` bytes of the constructor, `fill_rect` of a
    rectangle inside the canvas with a nonzero pen color succeeds, leaves every pixel
    of the rectangle reading foreground and every other in-range pixel as it was. -/
theorem fill_rect_on_canvas (WIDTH HEIGHT pen_color : Nat) (m_bitmap : List Nat)
    (x y width height : Nat) (hW : WIDTH < 256) (hH : HEIGHT < 256) (h8 : HEIGHT % 8 = 0)
    (hbuf : m_count WIDTH HEIGHT ≤ m_bitmap.length) (hpen : pen_color ≠ 0)
    (hw : x + width ≤ WIDTH) (hh : y + height ≤ HEIGHT) :
    ∃ out, fill_rect WIDTH pen_color m_bitmap x y width height = some out ∧
      out.length = m_bitmap.length ∧
      (∀ x' y', x ≤ x' → x' < x + width → y ≤ y' → y' < y + height →
        read_pixel WIDTH out x' y' = some Color.foreground) ∧
      (∀ x' y', x' < WIDTH → y' < HEIGHT →
        ¬ (x ≤ x' ∧ x' < x + width ∧ y ≤ y' ∧ y' < y + height) →
        pixel_bit WIDTH out x' y' = pixel_bit WIDTH m_bitmap x' y' ∧
        read_pixel WIDTH out x' y' = read_pixel WIDTH m_bitmap x' y') :=
  fill_rect_foreground WIDTH HEIGHT pen_color m_bitmap x y width height hpen hw hh
    (fun x' hx' y' hy' =>
      Nat.lt_of_lt_of_le (in_range_byte_lt_m_count WIDTH HEIGHT x' y' hW hH h8 hx' hy') hbuf)

/-! ## Claims about `fill_rect` -/

/-- C8: on the 8x8 canvas with its `m_count 8 8 = 8` bytes, `fill_rect(0, 0, 8, 8)`
    with a foreground pen turns the whole bitmap into the foreground pattern.  On the
    8x12 canvas the constructor stores `m_count 8 12 = 12`; the rectangle
    `[4, 8) x [8, 12)` lies inside the canvas, but its first pixel (4, 8) has byte
    index 12, outside the 12-byte bitmap, and `fill_rect(4, 8, 4, 4)`, taken as
    `draw_pixel` at every coordinate of the rectangle, has no defined result. -/
theorem fill_rect_outside_bitmap_8_12 :
    (m_count 8 8 = 8 ∧
      fill_rect 8 1 (List.replicate (m_count 8 8) 255) 0 0 8 8
        = some [0, 0, 0, 0, 0, 0, 0, 0]) ∧
    (m_count 8 12 = 12 ∧ 4 + 4 ≤ 8 ∧ 8 + 4 ≤ 12 ∧
      (4, 8) ∈ rect_points 4 8 4 4 ∧ byteIndex 8 4 8 = 12 ∧
      draw_pixel 8 1 (List.replicate (m_count 8 12) 255) 4 8 = none ∧
      fill_rect 8 1 (List.replicate (m_count 8 12) 255) 4 8 4 4 = none) := by
  have h8 : m_count 8 8 = 8 := m_count_exact 8 8 (by norm_num)
  have h12 : m_count 8 12 = 12 := m_count_exact 8 12 (by norm_num)
  rw [h8, h12]
  decide

/-! ## Pairs of `draw_pixel` calls -/

/-- Form of `draw_pixel_eq` with the old byte named by a lookup. -/
theorem draw_pixel_of_lookup (WIDTH pen_color : Nat) (m_bitmap : List Nat) (x y v : Nat)
    (hv : m_bitmap[byteIndex WIDTH x y]? = some v) :
    draw_pixel WIDTH pen_color m_bitmap x y
      = some (m_bitmap.set (byteIndex WIDTH x y)
          (if pen_color = 0 then (v ||| (1 <<< bitPos y)) % 256
           else (v &&& intNot (1 <<< bitPos y)) % 256)) := by
  unfold draw_pixel
  simp only [hv]
  split <;> rfl

/-- A store at the same bit position hides the store made before it. -/
theorem new_byte_overwrite (a b v pos : Nat) :
    (if b = 0 then
        ((if a = 0 then (v ||| (1 <<< pos)) % 256
          else (v &&& intNot (1 <<< pos)) % 256) ||| (1 <<< pos)) % 256
      else ((if a = 0 then (v ||| (1 <<< pos)) % 256
          else (v &&& intNot (1 <<< pos)) % 256) &&& intNot (1 <<< pos)) % 256)
      = (if b = 0 then (v ||| (1 <<< pos)) % 256
          else (v &&& intNot (1 <<< pos)) % 256) := by
  apply Nat.eq_of_testBit_eq
  intro j
  rw [testBit_new_byte, testBit_new_byte, testBit_new_byte]
  by_cases hj : j < 8 <;> by_cases hp : pos = j <;> simp [hj, hp]

/-- Stores at two different bit positions of one byte commute. -/
theorem new_byte_comm (c1 c2 v p1 p2 : Nat) (hne : p1 ≠ p2) :
    (if c2 = 0 then
        ((if c1 = 0 then (v ||| (1 <<< p1)) % 256
          else (v &&& intNot (1 <<< p1)) % 256) ||| (1 <<< p2)) % 256
      else ((if c1 = 0 then (v ||| (1 <<< p1)) % 256
          else (v &&& intNot (1 <<< p1)) % 256) &&& intNot (1 <<< p2)) % 256)
      = (if c1 = 0 then
        ((if c2 = 0 then (v ||| (1 <<< p2)) % 256
          else (v &&& intNot (1 <<< p2)) % 256) ||| (1 <<< p1)) % 256
      else ((if c2 = 0 then (v ||| (1 <<< p2)) % 256
          else (v &&& intNot (1 <<< p2)) % 256) &&& intNot (1 <<< p1)) % 256) := by
  apply Nat.eq_of_testBit_eq
  intro j
  rw [testBit_new_byte, testBit_new_byte, testBit_new_byte, testBit_new_byte]
  by_cases hj : j < 8 <;> by_cases h1 : p1 = j <;> by_cases h2 : p2 = j <;>
    simp [hj, h1, h2]
  exact absurd (h1.trans h2.symm) hne

/-- C11: pixels do not alias.  Two different coordinates in columns below `WIDTH`
    have different (byte index, bit position) pairs, and `draw_pixel(x, y)`, with any
    pen color and on any bitmap holding its byte, succeeds and leaves the stored bit
    of pixel `(x', y')` as it was. -/
theorem draw_pixel_no_alias (WIDTH x y x' y' : Nat) (hx : x < WIDTH) (hx' : x' < WIDTH)
    (hne : (x, y) ≠ (x', y')) :
    (((y >>> 3) * WIDTH) + x, y &&& 0x07) ≠ (((y' >>> 3) * WIDTH) + x', y' &&& 0x07) ∧
    ∀ (pen_color : Nat) (m_bitmap : List Nat), ((y >>> 3) * WIDTH) + x < m_bitmap.length →
      ∃ out, draw_pixel WIDTH pen_color m_bitmap x y = some out ∧
        pixel_bit WIDTH out x' y' = pixel_bit WIDTH m_bitmap x' y' := by
  have hpair : ¬ (byteIndex WIDTH x y = byteIndex WIDTH x' y' ∧ bitPos y = bitPos y') := by
    rintro ⟨hi, hp⟩
    obtain ⟨e1, e2⟩ := pixel_addr_inj WIDTH x y x' y' hx hx' hi hp
    exact hne (by rw [e1, e2])
  refine ⟨?_, ?_⟩
  · intro heq
    exact hpair ⟨congrArg Prod.fst heq, congrArg Prod.snd heq⟩
  · intro pen_color m_bitmap hlen
    obtain ⟨out, hout, _, _, hkeep⟩ := bitAt_draw_pixel WIDTH pen_color m_bitmap x y hlen
    refine ⟨out, hout, ?_⟩
    have hk : bitPos y' < 8 := by rw [bitPos_eq]; exact Nat.mod_lt _ (by norm_num)
    rw [pixel_bit_eq_bitAt, pixel_bit_eq_bitAt]
    exact hkeep _ _ hk hpair

/-- Witness of C11: pixels (3, 5) and (3, 6) of an 8-wide canvas share byte 3 and
    differ in the bit position. -/
theorem draw_pixel_no_alias_witness :
    (((5 >>> 3) * 8) + 3, 5 &&& 0x07) ≠ (((6 >>> 3) * 8) + 3, 6 &&& 0x07) ∧
    ∀ (pen_color : Nat) (m_bitmap : List Nat), ((5 >>> 3) * 8) + 3 < m_bitmap.length →
      ∃ out, draw_pixel 8 pen_color m_bitmap 3 5 = some out ∧
        pixel_bit 8 out 3 6 = pixel_bit 8 m_bitmap 3 6 :=
  draw_pixel_no_alias 8 3 5 3 6 (by decide) (by decide) (by decide)

/-- C12: last write wins.  When the byte of pixel `(x, y)` exists in the bitmap,
    `draw_pixel(x, y)` with pen `a` followed by `draw_pixel(x, y)` with pen `b`
    succeeds and yields the bitmap of `draw_pixel(x, y)` with pen `b` alone. -/
theorem draw_pixel_last_write_wins (WIDTH a b : Nat) (m_bitmap : List Nat) (x y : Nat)
    (h : (y / 8) * WIDTH + x < m_bitmap.length) :
    ∃ out, draw_pixel WIDTH b m_bitmap x y = some out ∧
      (draw_pixel WIDTH a m_bitmap x y).bind (fun m => draw_pixel WIDTH b m x y)
        = some out := by
  have hi : byteIndex WIDTH x y < m_bitmap.length := by rw [byteIndex_eq]; exact h
  have hv : m_bitmap[byteIndex WIDTH x y]? = some m_bitmap[byteIndex WIDTH x y] :=
    List.getElem?_eq_getElem hi
  have hb := draw_pixel_of_lookup WIDTH b m_bitmap x y _ hv
  have ha := draw_pixel_of_lookup WIDTH a m_bitmap x y _ hv
  refine ⟨_, hb, ?_⟩
  rw [ha, Option.some_bind,
    draw_pixel_of_lookup WIDTH b _ x y _ (List.getElem?_set_self hi),
    List.set_set, new_byte_overwrite]

/-- Witness of C12: pixel (3, 5) of an 8x8 canvas, pen 0 then pen 1. -/
theorem draw_pixel_last_write_wins_witness :
    ∃ out, draw_pixel 8 1 [255, 255, 255, 255, 255, 255, 255, 255] 3 5 = some out ∧
      (draw_pixel 8 0 [255, 255, 255, 255, 255, 255, 255, 255] 3 5).bind
          (fun m => draw_pixel 8 1 m 3 5)
        = some out :=
  draw_pixel_last_write_wins 8 0 1 [255, 255, 255, 255, 255, 255, 255, 255] 3 5 (by decide)

/-- C13: order independence.  For two different coordinates in columns below
    `WIDTH` whose bytes both exist in the bitmap, and any pen colors `c1`, `c2`,
    drawing `(x1, y1)` with pen `c1` and then `(x2, y2)` with pen `c2` succeeds and
    yields the same bitmap as the two draws in the opposite order. -/
theorem draw_pixel_order_independent (WIDTH c1 c2 : Nat) (m_bitmap : List Nat)
    (x1 y1 x2 y2 : Nat) (hne : (x1, y1) ≠ (x2, y2)) (hx1 : x1 < WIDTH) (hx2 : x2 < WIDTH)
    (h1 : (y1 / 8) * WIDTH + x1 < m_bitmap.length)
    (h2 : (y2 / 8) * WIDTH + x2 < m_bitmap.length) :
    ∃ out,
      (draw_pixel WIDTH c1 m_bitmap x1 y1).bind (fun m => draw_pixel WIDTH c2 m x2 y2)
        = some out ∧
      (draw_pixel WIDTH c2 m_bitmap x2 y2).bind (fun m => draw_pixel WIDTH c1 m x1 y1)
        = some out := by
  have hi1 : byteIndex WIDTH x1 y1 < m_bitmap.length := by rw [byteIndex_eq]; exact h1
  have hi2 : byteIndex WIDTH x2 y2 < m_bitmap.length := by rw [byteIndex_eq]; exact h2
  obtain ⟨v1, hv1⟩ : ∃ v, m_bitmap[byteIndex WIDTH x1 y1]? = some v :=
    ⟨_, List.getElem?_eq_getElem hi1⟩
  obtain ⟨v2, hv2⟩ : ∃ v, m_bitmap[byteIndex WIDTH x2 y2]? = some v :=
    ⟨_, List.getElem?_eq_getElem hi2⟩
  rw [draw_pixel_of_lookup WIDTH c1 m_bitmap x1 y1 v1 hv1,
    draw_pixel_of_lookup WIDTH c2 m_bitmap x2 y2 v2 hv2, Option.some_bind, Option.some_bind]
  by_cases hidx : byteIndex WIDTH x1 y1 = byteIndex WIDTH x2 y2
  · have hpos : bitPos y1 ≠ bitPos y2 := by
      intro hp
      obtain ⟨e1, e2⟩ := pixel_addr_inj WIDTH x1 y1 x2 y2 hx1 hx2 hidx hp
      exact hne (by rw [e1, e2])
    have hv : v2 = v1 := by
      rw [hidx, hv2] at hv1
      exact Option.some.inj hv1
    subst hv
    have h12 := draw_pixel_of_lookup WIDTH c2
      (m_bitmap.set (byteIndex WIDTH x1 y1)
        (if c1 = 0 then (v2 ||| (1 <<< bitPos y1)) % 256
          else (v2 &&& intNot (1 <<< bitPos y1)) % 256)) x2 y2 _
      (by rw [← hidx]; exact List.getElem?_set_self hi1)
    have h21 := draw_pixel_of_lookup WIDTH c1
      (m_bitmap.set (byteIndex WIDTH x2 y2)
        (if c2 = 0 then (v2 ||| (1 <<< bitPos y2)) % 256
          else (v2 &&& intNot (1 <<< bitPos y2)) % 256)) x1 y1 _
      (by rw [hidx]; exact List.getElem?_set_self hi2)
    rw [← hidx, List.set_set] at h12
    rw [← hidx, List.set_set, ← new_byte_comm c1 c2 v2 _ _ hpos] at h21
    rw [← hidx]
    exact ⟨_, h12, h21⟩
  · have h12 := draw_pixel_of_lookup WIDTH c2
      (m_bitmap.set (byteIndex WIDTH x1 y1)
        (if c1 = 0 then (v1 ||| (1 <<< bitPos y1)) % 256
          else (v1 &&& intNot (1 <<< bitPos y1)) % 256)) x2 y2 v2
      (by rw [List.getElem?_set_ne hidx]; exact hv2)
    have h21 := draw_pixel_of_lookup WIDTH c1
      (m_bitmap.set (byteIndex WIDTH x2 y2)
        (if c2 = 0 then (v2 ||| (1 <<< bitPos y2)) % 256
          else (v2 &&& intNot (1 <<< bitPos y2)) % 256)) x1 y1 v1
      (by rw [List.getElem?_set_ne (Ne.symm hidx)]; exact hv1)
    rw [List.set_comm _ _ _ (Ne.symm hidx)] at h21
    exact ⟨_, h12, h21⟩

/-- Witness of C13: pixels (3, 5) and (3, 6) of an 8x8 canvas, which share byte 3,
    drawn with pen 0 and pen 1. -/
theorem draw_pixel_order_independent_witness :
    ∃ out,
      (draw_pixel 8 0 [170, 170, 170, 170, 170, 170, 170, 170] 3 5).bind
          (fun m => draw_pixel 8 1 m 3 6) = some out ∧
      (draw_pixel 8 1 [170, 170, 170, 170, 170, 170, 170, 170] 3 6).bind
          (fun m => draw_pixel 8 0 m 3 5) = some out :=
  draw_pixel_order_independent 8 0 1 [170, 170, 170, 170, 170, 170, 170, 170] 3 5 3 6
    (by decide) (by decide) (by decide) (by decide) (by decide)

/-! ## Range of the addressing arithmetic -/

/-- C14: for `x`, `y` and `WIDTH` in 0..255 the addressing arithmetic of `draw_pixel`
    stays inside a signed 16-bit `int`: `y >> 3` is at most 31, the product
    `(y >> 3) * WIDTH` at most `31 * 255`, the byte index `(y >> 3) * WIDTH + x` at most
    `31 * 255 + 255 = 8160`, so the 16-bit value of the index is the index itself; and
    the mask `1 << (y & 0x07)` is one of 1, 2, 4, 8, 16, 32, 64, 128. -/
theorem draw_pixel_no_overflow (WIDTH x y : Nat) (hW : WIDTH < 256) (hx : x < 256)
    (hy : y < 256) :
    y >>> 3 ≤ 31 ∧ (y >>> 3) * WIDTH ≤ 31 * 255 ∧
    byteIndex WIDTH x y ≤ 31 * 255 + 255 ∧ byteIndex WIDTH x y ≤ 8160 ∧
    toInt16 ((byteIndex WIDTH x y : Nat) : Int) = ((byteIndex WIDTH x y : Nat) : Int) ∧
    1 <<< bitPos y ∈ [1, 2, 4, 8, 16, 32, 64, 128] ∧
    toInt16 ((1 <<< bitPos y : Nat) : Int) = ((1 <<< bitPos y : Nat) : Int) := by
  have hs : y >>> 3 ≤ 31 := by rw [shiftRight_three]; omega
  have hprod : (y >>> 3) * WIDTH ≤ 31 * 255 := Nat.mul_le_mul hs (by omega)
  have hidx : byteIndex WIDTH x y ≤ 8160 := byteIndex_le WIDTH x y hW hx hy
  have hmask : 1 <<< bitPos y ∈ [1, 2, 4, 8, 16, 32, 64, 128] := by
    have hk : bitPos y < 8 := by rw [bitPos_eq]; exact Nat.mod_lt _ (by norm_num)
    generalize bitPos y = k at hk
    interval_cases k <;> decide
  have hmask_le : 1 <<< bitPos y ≤ 128 := by
    generalize 1 <<< bitPos y = m at hmask
    simp only [List.mem_cons, List.mem_singleton, List.mem_nil_iff, or_false] at hmask
    omega
  refine ⟨hs, hprod, hidx, hidx, ?_, hmask, ?_⟩
  · unfold toInt16
    generalize byteIndex WIDTH x y = n at hidx
    omega
  · unfold toInt16
    generalize 1 <<< bitPos y = m at hmask_le
    omega

/-- Witness of C14: the largest arguments, which reach the bound 8160. -/
theorem draw_pixel_no_overflow_witness :
    byteIndex 255 255 255 = 8160 ∧
    (255 >>> 3 ≤ 31 ∧ (255 >>> 3) * 255 ≤ 31 * 255 ∧
    byteIndex 255 255 255 ≤ 31 * 255 + 255 ∧ byteIndex 255 255 255 ≤ 8160 ∧
    toInt16 ((byteIndex 255 255 255 : Nat) : Int) = ((byteIndex 255 255 255 : Nat) : Int) ∧
    1 <<< bitPos 255 ∈ [1, 2, 4, 8, 16, 32, 64, 128] ∧
    toInt16 ((1 <<< bitPos 255 : Nat) : Int) = ((1 <<< bitPos 255 : Nat) : Int)) :=
  ⟨by decide, draw_pixel_no_overflow 255 255 255 (by decide) (by decide) (by decide)⟩

end OffScreen
